import Mathlib

set_option maxRecDepth 10000

unseal Rat.mul Rat.inv Rat.sub Rat.add

/-!
Formalisation of the keyword-matching core of `cli_runner.py` (ATS résumé
checker): the tokenizer `simple_tokenizer` / `clean_and_tokenize`, the
comparator `compare_keywords`, and the scoring formula, embedded shallowly.
Strings are Lean strings, token sets are `Finset String`, and the Python
float score is idealised as an exact rational with banker rounding.
-/

/-- A word character in the sense of the regex class `\w` as the spec reads
it: a letter, a digit, or an underscore (ASCII). -/
def isWordChar (c : Char) : Bool := c.isAlphanum || c == '_'

/-- One left-to-right scan of the character list, accumulating the current run
of word characters (in reverse) and emitting each maximal run as it ends.
This realises `re.findall(r"\b\w+\b", ·)` on an already-lowercased text:
the matches of that pattern are exactly the maximal runs of word characters. -/
def scanTokens : List Char → List Char → List (List Char)
  | cur, [] => if cur = [] then [] else [cur.reverse]
  | cur, c :: cs =>
    if isWordChar c then scanTokens (c :: cur) cs
    else if cur = [] then scanTokens [] cs
    else cur.reverse :: scanTokens [] cs

/-- Function `simple_tokenizer` from `cli_runner.py`:
`re.findall(r"\b\w+\b", text.lower())`, the list of maximal word-character
runs of the lowercased text. -/
def simple_tokenizer (text : String) : List String :=
  (scanTokens [] (text.toList.map Char.toLower)).map List.asString

/-- Function `clean_and_tokenize` from `cli_runner.py`:
`set(simple_tokenizer(text))`. -/
def clean_and_tokenize (text : String) : Finset String :=
  (simple_tokenizer text).toFinset

/-- Recursive presentation of the run scanner: pop the maximal word-character
run at the head, or skip a leading non-word character. Proved equal to
`scanTokens [] ·` below and used to reason about the tokenizer. -/
def tokenizeRuns : List Char → List (List Char)
  | [] => []
  | c :: cs =>
    if isWordChar c then
      (c :: cs.takeWhile isWordChar) :: tokenizeRuns (cs.dropWhile isWordChar)
    else tokenizeRuns cs
termination_by l => l.length
decreasing_by
  · exact Nat.lt_succ_of_le (List.dropWhile_suffix _).sublist.length_le
  · exact Nat.lt_succ_self _

/-- The property, read off the spec, of being one of the maximal substrings of
`l` made of word characters and bounded by non-word-character boundaries:
`t` is nonempty, consists of word characters only, and occurs in `l` with a
non-word character (or nothing) immediately before and after it. -/
def IsMaxWordRun (l t : List Char) : Prop :=
  t ≠ [] ∧ (∀ c ∈ t, isWordChar c = true) ∧
    ∃ pre post, l = pre ++ t ++ post ∧
      (∀ c, pre.getLast? = some c → isWordChar c = false) ∧
      (∀ c, post.head? = some c → isWordChar c = false)

/-- Python `round` to the nearest integer: ties go to the even integer
(banker rounding), idealised over exact rationals. -/
def roundHalfToEven (q : ℚ) : ℤ :=
  if q - ⌊q⌋ < 1 / 2 then ⌊q⌋
  else if 1 / 2 < q - ⌊q⌋ then ⌊q⌋ + 1
  else if ⌊q⌋ % 2 = 0 then ⌊q⌋ else ⌊q⌋ + 1

/-- Python `round(q, 2)`: round to two decimal places. -/
def round2 (q : ℚ) : ℚ := (roundHalfToEven (q * 100) : ℚ) / 100

/-- The result triple of `compare_keywords`, with the field names the spec
gives to the ComparisonResult entity. -/
structure ComparisonResult where
  score : ℚ
  matchedKeywords : List String
  missingKeywords : List String
deriving DecidableEq

/-- Function `compare_keywords` from `cli_runner.py`: tokenize both texts,
intersect,
subtract, score by `len(matched) / len(job_keywords) * 100` guarded against
an empty job-keyword set, and return the two keyword lists sorted. -/
def compare_keywords (resume_text job_desc_text : String) : ComparisonResult :=
  let resume_words := clean_and_tokenize resume_text
  let job_keywords := clean_and_tokenize job_desc_text
  let matched_keywords := resume_words ∩ job_keywords
  let missing_keywords := job_keywords \ resume_words
  let score : ℚ :=
    if job_keywords = ∅ then 0
    else ((matched_keywords.card : ℚ) / (job_keywords.card : ℚ)) * 100
  { score := round2 score
    matchedKeywords := matched_keywords.sort (· ≤ ·)
    missingKeywords := missing_keywords.sort (· ≤ ·) }

/-- Rounding leaves zero fixed: `round2 0 = 0`. -/
theorem round2_zero : round2 0 = 0 := by decide

/-- C1: for every pair of texts, `compare_keywords` returns as score the
fraction of job-description tokens that also occur in the résumé, times 100
and rounded to two decimal places; and whenever the job-description token set
is empty the score is exactly 0 (the else-branch of the conditional, so no
division is performed there). -/
theorem compare_keywords_score_formula (r j : String) :
    (compare_keywords r j).score =
      if clean_and_tokenize j = ∅ then 0
      else round2 ((((clean_and_tokenize r ∩ clean_and_tokenize j).card : ℚ) /
        ((clean_and_tokenize j).card : ℚ)) * 100) := by
  simp only [compare_keywords]
  split
  · exact round2_zero
  · rfl

/-- C2: the matched and missing keyword lists are disjoint, each is contained
in the job-description token set, and together they cover it exactly. -/
theorem compare_keywords_partition (r j : String) :
    (compare_keywords r j).matchedKeywords.toFinset ∩
        (compare_keywords r j).missingKeywords.toFinset = ∅ ∧
    (compare_keywords r j).matchedKeywords.toFinset ⊆ clean_and_tokenize j ∧
    (compare_keywords r j).missingKeywords.toFinset ⊆ clean_and_tokenize j ∧
    (compare_keywords r j).matchedKeywords.toFinset ∪
        (compare_keywords r j).missingKeywords.toFinset = clean_and_tokenize j := by
  simp only [compare_keywords, Finset.sort_toFinset]
  refine ⟨?_, ?_, Finset.sdiff_subset, ?_⟩
  · ext x
    simp only [Finset.mem_inter, Finset.mem_sdiff, Finset.not_mem_empty, iff_false]
    tauto
  · exact Finset.inter_subset_right
  · ext x
    simp only [Finset.mem_union, Finset.mem_inter, Finset.mem_sdiff]
    tauto

/-- C4: whenever the job-description text tokenizes to the empty set, the
result is score 0 with two empty keyword lists (the guarded conditional takes
its else-branch, so the division is never executed). -/
theorem compare_keywords_empty_job (r j : String)
    (h : clean_and_tokenize j = ∅) :
    compare_keywords r j = ⟨0, [], []⟩ := by
  simp [compare_keywords, h, Finset.inter_empty, Finset.empty_sdiff,
    Finset.sort_empty, round2_zero]

/-- Witness for C4 at the concrete inputs of the spec: the empty
job-description text yields score 0 and empty keyword lists. -/
theorem compare_keywords_empty_job_witness :
    clean_and_tokenize "" = ∅ ∧
      compare_keywords "Python developer" "" = ⟨0, [], []⟩ :=
  ⟨by decide, compare_keywords_empty_job "Python developer" "" (by decide)⟩

/-- Rounding leaves one hundred fixed: `round2 100 = 100`. -/
theorem round2_hundred : round2 100 = 100 := by decide

/-- C3 as stated is false: the empty résumé text and the empty job-description
text tokenize to identical (empty) token sets, yet the returned score is 0,
not 100. -/
theorem identical_tokens_score_counterexample :
    clean_and_tokenize "" = clean_and_tokenize "" ∧
      (compare_keywords "" "").score ≠ 100 := by
  refine ⟨rfl, ?_⟩
  have h : clean_and_tokenize "" = ∅ := by decide
  simp [compare_keywords, h, round2_zero]

/-- C3 amended: for every pair of texts whose tokenizations yield identical
and nonempty token sets, `compare_keywords` returns score 100 and an empty
missing-keywords list. -/
theorem identical_nonempty_tokens_full_score (r j : String)
    (h : clean_and_tokenize r = clean_and_tokenize j)
    (hne : clean_and_tokenize j ≠ ∅) :
    (compare_keywords r j).score = 100 ∧
      (compare_keywords r j).missingKeywords = [] := by
  have hcard : ((clean_and_tokenize j).card : ℚ) ≠ 0 := by
    exact_mod_cast fun hc => hne (Finset.card_eq_zero.mp (by exact_mod_cast hc))
  constructor
  · simp only [compare_keywords, h, Finset.inter_self, if_neg hne]
    rw [div_self hcard, one_mul, round2_hundred]
  · simp only [compare_keywords, h, Finset.sdiff_self, Finset.sort_empty]

/-- Witness for the amended C3: two texts with the same tokens up to case and
order give score 100 and no missing keywords. -/
theorem identical_nonempty_tokens_full_score_witness :
    clean_and_tokenize "Python developer" = clean_and_tokenize "DEVELOPER python" ∧
      clean_and_tokenize "DEVELOPER python" ≠ ∅ ∧
      (compare_keywords "Python developer" "DEVELOPER python").score = 100 ∧
      (compare_keywords "Python developer" "DEVELOPER python").missingKeywords = [] :=
  ⟨by decide, by decide,
    identical_nonempty_tokens_full_score "Python developer" "DEVELOPER python"
      (by decide) (by decide)⟩

/-- The integer returned by banker rounding is at least the floor of the
rounded number. -/
theorem floor_le_roundHalfToEven (q : ℚ) : ⌊q⌋ ≤ roundHalfToEven q := by
  unfold roundHalfToEven
  split_ifs <;> omega

/-- The integer returned by banker rounding is at most the ceiling of the
rounded number. -/
theorem roundHalfToEven_le_ceil (q : ℚ) : roundHalfToEven q ≤ ⌈q⌉ := by
  have hfc : ⌊q⌋ ≤ ⌈q⌉ := Int.floor_le_ceil q
  have key : 1 / 2 ≤ q - ⌊q⌋ → ⌊q⌋ + 1 ≤ ⌈q⌉ := by
    intro hhalf
    have h0 : (⌊q⌋ : ℚ) < q := by linarith
    have h1 : (⌊q⌋ : ℚ) < (⌈q⌉ : ℚ) := lt_of_lt_of_le h0 (Int.le_ceil q)
    have h2 : ⌊q⌋ < ⌈q⌉ := by exact_mod_cast h1
    omega
  unfold roundHalfToEven
  split_ifs with h1 h2 h3
  · exact hfc
  · exact key (le_of_lt h2)
  · exact hfc
  · exact key (le_of_not_lt h1)

/-- Rounding to two decimals preserves nonnegativity. -/
theorem round2_nonneg (q : ℚ) (h : 0 ≤ q) : 0 ≤ round2 q := by
  unfold round2
  have h1 : (0 : ℤ) ≤ ⌊q * 100⌋ := Int.floor_nonneg.mpr (by positivity)
  have h2 : (0 : ℤ) ≤ roundHalfToEven (q * 100) :=
    le_trans h1 (floor_le_roundHalfToEven _)
  have h3 : (0 : ℚ) ≤ (roundHalfToEven (q * 100) : ℚ) := by exact_mod_cast h2
  positivity

/-- Rounding to two decimals preserves the upper bound 100. -/
theorem round2_le_hundred (q : ℚ) (h : q ≤ 100) : round2 q ≤ 100 := by
  unfold round2
  have h1 : ⌈q * 100⌉ ≤ 10000 := Int.ceil_le.mpr (by push_cast; linarith)
  have h2 : roundHalfToEven (q * 100) ≤ 10000 :=
    le_trans (roundHalfToEven_le_ceil _) h1
  have h3 : (roundHalfToEven (q * 100) : ℚ) ≤ 10000 := by exact_mod_cast h2
  linarith

/-- C8: the score returned by `compare_keywords` always lies in [0, 100]. -/
theorem compare_keywords_score_in_range (r j : String) :
    0 ≤ (compare_keywords r j).score ∧ (compare_keywords r j).score ≤ 100 := by
  simp only [compare_keywords]
  by_cases hj : clean_and_tokenize j = ∅
  · simp [hj, round2_zero]
  · rw [if_neg hj]
    have hpos : 0 < (clean_and_tokenize j).card :=
      Finset.card_pos.mpr (Finset.nonempty_iff_ne_empty.mpr hj)
    have hle : (clean_and_tokenize r ∩ clean_and_tokenize j).card ≤
        (clean_and_tokenize j).card :=
      Finset.card_le_card Finset.inter_subset_right
    have hposq : (0 : ℚ) < ((clean_and_tokenize j).card : ℚ) := by exact_mod_cast hpos
    have h0 : (0 : ℚ) ≤ (((clean_and_tokenize r ∩ clean_and_tokenize j).card : ℚ) /
        ((clean_and_tokenize j).card : ℚ)) * 100 := by positivity
    have h100 : (((clean_and_tokenize r ∩ clean_and_tokenize j).card : ℚ) /
        ((clean_and_tokenize j).card : ℚ)) * 100 ≤ 100 := by
      have hq : ((clean_and_tokenize r ∩ clean_and_tokenize j).card : ℚ) ≤
          ((clean_and_tokenize j).card : ℚ) := by exact_mod_cast hle
      have hdiv : (((clean_and_tokenize r ∩ clean_and_tokenize j).card : ℚ) /
          ((clean_and_tokenize j).card : ℚ)) ≤ 1 := by
        rw [div_le_one hposq]
        exact hq
      linarith
    exact ⟨round2_nonneg _ h0, round2_le_hundred _ h100⟩

/-- C6: both keyword lists returned by `compare_keywords` are sorted in
lexicographic (string) order. -/
theorem compare_keywords_outputs_sorted (r j : String) :
    List.Sorted (· ≤ ·) (compare_keywords r j).matchedKeywords ∧
    List.Sorted (· ≤ ·) (compare_keywords r j).missingKeywords := by
  simp only [compare_keywords]
  exact ⟨Finset.sort_sorted _ _, Finset.sort_sorted _ _⟩

/-- Evaluation rule for `compare_keywords`: a concrete result triple is
correct once each keyword list is sorted, duplicate-free and carries exactly
the right token set, and the score matches the guarded formula. -/
theorem compare_keywords_eq_of (r j : String) (sc : ℚ) (ml ms : List String)
    (hml : List.Sorted (· ≤ ·) ml) (hmln : ml.Nodup)
    (hmlt : ml.toFinset = clean_and_tokenize r ∩ clean_and_tokenize j)
    (hmsl : List.Sorted (· ≤ ·) ms) (hmsn : ms.Nodup)
    (hmst : ms.toFinset = clean_and_tokenize j \ clean_and_tokenize r)
    (hsc : round2 (if clean_and_tokenize j = ∅ then 0
      else (((clean_and_tokenize r ∩ clean_and_tokenize j).card : ℚ) /
        ((clean_and_tokenize j).card : ℚ)) * 100) = sc) :
    compare_keywords r j = ⟨sc, ml, ms⟩ := by
  simp only [compare_keywords, ComparisonResult.mk.injEq]
  refine ⟨hsc, ?_, ?_⟩
  · rw [← hmlt]
    exact (List.toFinset_sort _ hmln).mpr hml
  · rw [← hmst]
    exact (List.toFinset_sort _ hmsn).mpr hmsl

/-- C7: the concrete scenario of the spec. The job description
"Looking for a Python developer with AWS and SQL skills" yields the expected
ten-token set; against the résumé "Python developer with SQL experience" the
four tokens python, developer, with, sql match, the score is 40, and the six
missing keywords come back in alphabetical order. -/
theorem compare_keywords_concrete_scenario :
    clean_and_tokenize "Looking for a Python developer with AWS and SQL skills" =
      {"looking", "for", "a", "python", "developer", "with", "aws", "and",
        "sql", "skills"} ∧
    (clean_and_tokenize
        "Looking for a Python developer with AWS and SQL skills").card = 10 ∧
    compare_keywords "Python developer with SQL experience"
        "Looking for a Python developer with AWS and SQL skills" =
      ⟨40, ["developer", "python", "sql", "with"],
        ["a", "and", "aws", "for", "looking", "skills"]⟩ := by
  refine ⟨by decide, by decide, compare_keywords_eq_of _ _ _ _ _
    (by with_unfolding_all decide) (by decide) (by decide)
    (by with_unfolding_all decide) (by decide) (by decide) ?_⟩
  rw [if_neg (by decide)]
  have h1 : (clean_and_tokenize "Python developer with SQL experience" ∩
      clean_and_tokenize
        "Looking for a Python developer with AWS and SQL skills").card = 4 := by
    decide
  have h2 : (clean_and_tokenize
      "Looking for a Python developer with AWS and SQL skills").card = 10 := by
    decide
  rw [h1, h2]
  decide

/-- C10: the result of `compare_keywords` depends on the résumé text only
through the intersection of its token set with the job-description token set;
in particular two résumés with equal token sets, or differing only in tokens
the job description does not contain, give identical results. -/
theorem compare_keywords_resume_influence (r1 r2 j : String)
    (h : clean_and_tokenize r1 ∩ clean_and_tokenize j =
      clean_and_tokenize r2 ∩ clean_and_tokenize j) :
    compare_keywords r1 j = compare_keywords r2 j := by
  have hm : clean_and_tokenize j \ clean_and_tokenize r1 =
      clean_and_tokenize j \ clean_and_tokenize r2 := by
    ext x
    have hx := Finset.ext_iff.mp h x
    simp only [Finset.mem_inter] at hx
    simp only [Finset.mem_sdiff]
    tauto
  simp only [compare_keywords, h, hm]

/-- Witness for C10: a résumé mentioning `sql` and one mentioning `rust`
instead — neither token occurring in the job description — give identical
results. -/
theorem compare_keywords_resume_influence_witness :
    clean_and_tokenize "python sql" ∩ clean_and_tokenize "python java" =
      clean_and_tokenize "python rust" ∩ clean_and_tokenize "python java" ∧
    compare_keywords "python sql" "python java" =
      compare_keywords "python rust" "python java" :=
  ⟨by decide,
    compare_keywords_resume_influence "python sql" "python rust" "python java"
      (by decide)⟩

/-- The accumulator scanner agrees with the recursive run decomposition: with
accumulated partial run `cur` (stored reversed), it emits that run extended by
the pending word characters, then the runs of the remainder. -/
theorem scanTokens_eq_tokenizeRuns (l : List Char) :
    ∀ cur : List Char, scanTokens cur l =
      if cur = [] then tokenizeRuns l
      else (cur.reverse ++ l.takeWhile isWordChar) ::
        tokenizeRuns (l.dropWhile isWordChar) := by
  induction l with
  | nil =>
    intro cur
    by_cases h : cur = [] <;> simp [scanTokens, h, tokenizeRuns]
  | cons c cs ih =>
    intro cur
    by_cases hw : isWordChar c
    · have hstep : scanTokens cur (c :: cs) = scanTokens (c :: cur) cs := by
        simp [scanTokens, hw]
      rw [hstep, ih (c :: cur), if_neg (List.cons_ne_nil c cur)]
      by_cases h : cur = []
      · subst h
        simp [tokenizeRuns, hw]
      · rw [if_neg h]
        simp [List.takeWhile_cons, List.dropWhile_cons, hw]
    · have hwf : isWordChar c = false := by simpa using hw
      have hrest : tokenizeRuns (c :: cs) = tokenizeRuns cs := by
        simp [tokenizeRuns, hwf]
      by_cases h : cur = []
      · subst h
        have hstep : scanTokens [] (c :: cs) = scanTokens [] cs := by
          simp [scanTokens, hwf]
        rw [hstep, ih [], if_pos rfl, if_pos rfl, hrest]
      · have hstep : scanTokens cur (c :: cs) = cur.reverse :: scanTokens [] cs := by
          simp [scanTokens, hwf, h]
        rw [hstep, ih [], if_pos rfl, if_neg h]
        simp [List.takeWhile_cons, List.dropWhile_cons, hwf, hrest]

/-- The tokenizer is the recursive run decomposition of the lowercased text. -/
theorem simple_tokenizer_eq (text : String) :
    simple_tokenizer text =
      (tokenizeRuns (text.toList.map Char.toLower)).map List.asString := by
  rw [simple_tokenizer, scanTokens_eq_tokenizeRuns, if_pos rfl]

/-- Whatever dropping the `p`-satisfying prefix exposes at the head
falsifies `p`. -/
theorem head?_dropWhile_neg (p : Char → Bool) (l : List Char) :
    ∀ c, (l.dropWhile p).head? = some c → p c = false := by
  induction l with
  | nil =>
    intro c h
    simp at h
  | cons d ds ih =>
    intro c h
    by_cases hd : p d
    · rw [List.dropWhile_cons_of_pos hd] at h
      exact ih c h
    · have hdf : p d = false := by simpa using hd
      rw [List.dropWhile_cons_of_neg hd] at h
      simp only [List.head?_cons, Option.some.injEq] at h
      rw [← h]
      exact hdf

/-- Taking while a predicate holds never reaches past an inner element
falsifying the predicate. -/
theorem takeWhile_append_not (p : Char → Bool) (b : List Char) (c : Char)
    (hc : p c = false) :
    ∀ a : List Char, (a ++ c :: b).takeWhile p = a.takeWhile p := by
  intro a
  induction a with
  | nil => simp [List.takeWhile_cons, hc]
  | cons d a' ih => simp [List.takeWhile_cons, ih]

/-- Dropping while a predicate holds stops at or before an inner element
falsifying the predicate. -/
theorem dropWhile_append_not (p : Char → Bool) (b : List Char) (c : Char)
    (hc : p c = false) :
    ∀ a : List Char, (a ++ c :: b).dropWhile p = a.dropWhile p ++ c :: b := by
  intro a
  induction a with
  | nil => simp [List.dropWhile_cons, hc]
  | cons d a' ih =>
    by_cases hd : p d = true
    · simp [List.dropWhile_cons, hd, ih]
    · have hdf : p d = false := by simpa using hd
      simp [List.dropWhile_cons, hdf]

/-- A list whose `getLast?` is `some d` splits off `[d]` at the end. -/
theorem exists_append_of_getLast? (d : Char) :
    ∀ l : List Char, l.getLast? = some d → ∃ l', l = l' ++ [d] := by
  intro l
  induction l with
  | nil =>
    intro h
    simp at h
  | cons e l ih =>
    intro h
    cases l with
    | nil =>
      refine ⟨[], ?_⟩
      simp only [List.getLast?_singleton, Option.some.injEq] at h
      rw [h]
      rfl
    | cons f l' =>
      rw [List.getLast?_cons_cons] at h
      obtain ⟨m, hm⟩ := ih h
      exact ⟨e :: m, by rw [List.cons_append, ← hm]⟩

/-- A run of elements satisfying `p`, followed by a block that does not start
with one, is exactly what `takeWhile p` and `dropWhile p` split off. -/
theorem takeWhile_of_all_append (p : Char → Bool) (post : List Char)
    (hpost : ∀ c, post.head? = some c → p c = false) :
    ∀ t : List Char, (∀ c ∈ t, p c = true) →
      (t ++ post).takeWhile p = t ∧ (t ++ post).dropWhile p = post := by
  intro t
  induction t with
  | nil =>
    intro _
    cases post with
    | nil => simp
    | cons d ds =>
      have hd := hpost d (by simp)
      simp [List.takeWhile_cons, List.dropWhile_cons, hd]
  | cons a t' ih =>
    intro hall
    have ha : p a = true := hall a (by simp)
    obtain ⟨h1, h2⟩ := ih (fun c hc => hall c (by simp [hc]))
    simp [List.takeWhile_cons, List.dropWhile_cons, ha, h1, h2]

/-- No list is a maximal word run of the empty list. -/
theorem not_isMaxWordRun_nil (t : List Char) : ¬ IsMaxWordRun [] t := by
  rintro ⟨hne, -, pre, post, heq, -, -⟩
  apply hne
  have h := heq.symm
  have h1 := (List.append_eq_nil.mp h).1
  exact (List.append_eq_nil.mp h1).2

/-- Skipping a leading non-word character preserves the maximal word runs. -/
theorem isMaxWordRun_cons_not (c : Char) (cs t : List Char)
    (hw : isWordChar c = false) :
    IsMaxWordRun (c :: cs) t ↔ IsMaxWordRun cs t := by
  constructor
  · rintro ⟨hne, hall, pre, post, heq, hpre, hpost⟩
    cases pre with
    | nil =>
      exfalso
      cases t with
      | nil => exact hne rfl
      | cons a t' =>
        have h2 : c = a ∧ cs = t' ++ post := by
          have h := heq
          simp only [List.nil_append, List.cons_append] at h
          exact (List.cons.injEq _ _ _ _).mp h
        have ha : isWordChar a = true := hall a (by simp)
        rw [← h2.1, hw] at ha
        exact Bool.false_ne_true ha
    | cons p0 pre' =>
      have h2 : cs = pre' ++ t ++ post := by
        have h := heq
        simp only [List.cons_append] at h
        exact ((List.cons.injEq _ _ _ _).mp h).2
      refine ⟨hne, hall, pre', post, h2, ?_, hpost⟩
      intro d hd
      apply hpre d
      cases pre' with
      | nil => simp at hd
      | cons q pre'' =>
        rw [List.getLast?_cons_cons]
        exact hd
  · rintro ⟨hne, hall, pre, post, heq, hpre, hpost⟩
    refine ⟨hne, hall, c :: pre, post, by simp [heq, List.cons_append], ?_, hpost⟩
    intro d hd
    cases pre with
    | nil =>
      simp only [List.getLast?_singleton, Option.some.injEq] at hd
      rw [← hd]
      exact hw
    | cons q pre' =>
      rw [List.getLast?_cons_cons] at hd
      exact hpre d hd

/-- At a leading word character the maximal word runs are the leading run
itself and the maximal word runs of what is left after it. -/
theorem isMaxWordRun_cons_word (c : Char) (cs t : List Char)
    (hw : isWordChar c = true) :
    IsMaxWordRun (c :: cs) t ↔
      (t = c :: cs.takeWhile isWordChar ∨
        IsMaxWordRun (cs.dropWhile isWordChar) t) := by
  constructor
  · rintro ⟨hne, hall, pre, post, heq, hpre, hpost⟩
    cases pre with
    | nil =>
      left
      cases t with
      | nil => exact absurd rfl hne
      | cons a t' =>
        have h2 : c = a ∧ cs = t' ++ post := by
          have h := heq
          simp only [List.nil_append, List.cons_append] at h
          exact (List.cons.injEq _ _ _ _).mp h
        have hta : ∀ x ∈ t', isWordChar x = true := fun x hx => hall x (by simp [hx])
        obtain ⟨htw, -⟩ := takeWhile_of_all_append isWordChar post hpost t' hta
        rw [h2.1, h2.2, htw]
    | cons p0 pre' =>
      right
      obtain ⟨m, d, hmd⟩ : ∃ m d, p0 :: pre' = m ++ [d] := by
        rcases List.eq_nil_or_concat (p0 :: pre') with hnil | ⟨m, d, hmd⟩
        · exact absurd hnil (List.cons_ne_nil _ _)
        · exact ⟨m, d, by rw [hmd, List.concat_eq_append]⟩
      have hdw : isWordChar d = false := by
        apply hpre d
        rw [hmd, List.getLast?_append_cons, List.getLast?_singleton]
      have hsplit : c :: cs = m ++ d :: (t ++ post) := by
        rw [heq, hmd]
        simp [List.append_assoc]
      have hrest : cs.dropWhile isWordChar =
          (m.dropWhile isWordChar ++ [d]) ++ t ++ post := by
        have h := congrArg (List.dropWhile isWordChar) hsplit
        rw [List.dropWhile_cons_of_pos hw,
          dropWhile_append_not isWordChar (t ++ post) d hdw m] at h
        rw [h]
        simp [List.append_assoc]
      refine ⟨hne, hall, m.dropWhile isWordChar ++ [d], post, hrest, ?_, hpost⟩
      intro e he
      rw [List.getLast?_append_cons, List.getLast?_singleton] at he
      rw [← Option.some_inj.mp he]
      exact hdw
  · rintro (rfl | ⟨hne, hall, pre, post, heq, hpre, hpost⟩)
    · refine ⟨List.cons_ne_nil _ _, ?_, [], cs.dropWhile isWordChar, ?_, ?_, ?_⟩
      · intro x hx
        rcases List.mem_cons.mp hx with rfl | hx'
        · exact hw
        · exact List.mem_takeWhile_imp hx'
      · simp [List.takeWhile_append_dropWhile]
      · intro e he
        simp at he
      · exact fun e he => head?_dropWhile_neg _ _ e he
    · cases pre with
      | nil =>
        exfalso
        cases t with
        | nil => exact hne rfl
        | cons a t' =>
          have hhead : (cs.dropWhile isWordChar).head? = some a := by
            rw [heq]
            simp
          have hfa := head?_dropWhile_neg isWordChar cs a hhead
          have ha : isWordChar a = true := hall a (by simp)
          rw [ha] at hfa
          simp at hfa
      | cons p0 pre' =>
        refine ⟨hne, hall, (c :: cs.takeWhile isWordChar) ++ (p0 :: pre'), post,
          ?_, ?_, hpost⟩
        · have hcs : c :: cs =
              (c :: cs.takeWhile isWordChar) ++ cs.dropWhile isWordChar := by
            simp [List.takeWhile_append_dropWhile]
          rw [hcs, heq]
          simp [List.append_assoc]
        · intro e he
          rw [List.getLast?_append_cons] at he
          exact hpre e he

/-- Membership in the recursive run decomposition is exactly being a maximal
word run. -/
theorem mem_tokenizeRuns_iff (l t : List Char) :
    t ∈ tokenizeRuns l ↔ IsMaxWordRun l t := by
  suffices H : ∀ n (l : List Char), l.length ≤ n →
      ∀ t, (t ∈ tokenizeRuns l ↔ IsMaxWordRun l t) from H l.length l le_rfl t
  intro n
  induction n with
  | zero =>
    intro l hl t
    have hnil : l = [] := List.eq_nil_of_length_eq_zero (Nat.le_zero.mp hl)
    subst hnil
    simp only [tokenizeRuns, List.not_mem_nil, false_iff]
    exact not_isMaxWordRun_nil t
  | succ n ih =>
    intro l hl t
    cases l with
    | nil =>
      simp only [tokenizeRuns, List.not_mem_nil, false_iff]
      exact not_isMaxWordRun_nil t
    | cons c cs =>
      have hcs : cs.length ≤ n := by
        simp only [List.length_cons] at hl
        omega
      by_cases hw : isWordChar c = true
      · have hstep : tokenizeRuns (c :: cs) =
            (c :: cs.takeWhile isWordChar) ::
              tokenizeRuns (cs.dropWhile isWordChar) := by
          simp [tokenizeRuns, hw]
        have hlen : (cs.dropWhile isWordChar).length ≤ n :=
          le_trans (List.dropWhile_suffix _).sublist.length_le hcs
        rw [hstep, List.mem_cons, isMaxWordRun_cons_word c cs t hw,
          ih (cs.dropWhile isWordChar) hlen t]
      · have hwf : isWordChar c = false := by simpa using hw
        have hstep : tokenizeRuns (c :: cs) = tokenizeRuns cs := by
          simp [tokenizeRuns, hwf]
        rw [hstep, isMaxWordRun_cons_not c cs t hwf, ih cs hcs t]

/-- C5: membership in a token set is exactly being a maximal word-character
run of the lowercased input, bounded by non-word characters; consequently
tokenization is case-insensitive ("Python" and "python" tokenize alike) and
punctuation never enters a token ("C++" tokenizes to just "c"). -/
theorem clean_and_tokenize_maximal_runs :
    (∀ s t : String, t ∈ clean_and_tokenize s ↔
      IsMaxWordRun (s.toList.map Char.toLower) t.toList) ∧
    clean_and_tokenize "Python" = clean_and_tokenize "python" ∧
    clean_and_tokenize "C++" = {"c"} := by
  refine ⟨?_, by decide, by decide⟩
  intro s t
  rw [clean_and_tokenize, List.mem_toFinset, simple_tokenizer_eq, List.mem_map]
  constructor
  · rintro ⟨u, hu, rfl⟩
    rw [mem_tokenizeRuns_iff] at hu
    rwa [List.toList_asString]
  · intro h
    exact ⟨t.toList, (mem_tokenizeRuns_iff _ _).mpr h, String.asString_toList t⟩

/-- Splitting at a non-word character splits the run decomposition. -/
theorem tokenizeRuns_append_not (b : List Char) (c : Char)
    (hc : isWordChar c = false) :
    ∀ a : List Char, tokenizeRuns (a ++ c :: b) =
      tokenizeRuns a ++ tokenizeRuns b := by
  suffices H : ∀ n (a : List Char), a.length ≤ n →
      tokenizeRuns (a ++ c :: b) = tokenizeRuns a ++ tokenizeRuns b from
    fun a => H a.length a le_rfl
  intro n
  induction n with
  | zero =>
    intro a ha
    have hnil : a = [] := List.eq_nil_of_length_eq_zero (Nat.le_zero.mp ha)
    subst hnil
    simp [tokenizeRuns, hc]
  | succ n ih =>
    intro a ha
    cases a with
    | nil => simp [tokenizeRuns, hc]
    | cons d a' =>
      have ha' : a'.length ≤ n := by
        simp only [List.length_cons] at ha
        omega
      rw [List.cons_append]
      by_cases hd : isWordChar d = true
      · have h1 : tokenizeRuns (d :: (a' ++ c :: b)) =
            (d :: (a' ++ c :: b).takeWhile isWordChar) ::
              tokenizeRuns ((a' ++ c :: b).dropWhile isWordChar) := by
          simp [tokenizeRuns, hd]
        have h2 : tokenizeRuns (d :: a') =
            (d :: a'.takeWhile isWordChar) ::
              tokenizeRuns (a'.dropWhile isWordChar) := by
          simp [tokenizeRuns, hd]
        rw [h1, h2,
          takeWhile_append_not isWordChar b c hc a',
          dropWhile_append_not isWordChar b c hc a',
          ih (a'.dropWhile isWordChar)
            (le_trans (List.dropWhile_suffix _).sublist.length_le ha'),
          List.cons_append]
      · have hdf : isWordChar d = false := by simpa using hd
        have h1 : tokenizeRuns (d :: (a' ++ c :: b)) =
            tokenizeRuns (a' ++ c :: b) := by
          simp [tokenizeRuns, hdf]
        have h2 : tokenizeRuns (d :: a') = tokenizeRuns a' := by
          simp [tokenizeRuns, hdf]
        rw [h1, h2, ih a' ha']

/-- C9: the tokenizer distributes over concatenation with a separating
space, token sets combining by union. -/
theorem clean_and_tokenize_append_space (s1 s2 : String) :
    clean_and_tokenize (s1 ++ " " ++ s2) =
      clean_and_tokenize s1 ∪ clean_and_tokenize s2 := by
  unfold clean_and_tokenize
  rw [simple_tokenizer_eq, simple_tokenizer_eq, simple_tokenizer_eq]
  have hchars : (s1 ++ " " ++ s2).toList.map Char.toLower =
      (s1.toList.map Char.toLower) ++ ' ' :: (s2.toList.map Char.toLower) := by
    show ((s1 ++ " " ++ s2).data.map Char.toLower) =
      (s1.data.map Char.toLower) ++ ' ' :: (s2.data.map Char.toLower)
    rw [String.data_append, String.data_append, List.map_append, List.map_append,
      List.append_assoc]
    rfl
  rw [hchars, tokenizeRuns_append_not _ ' ' (by decide), List.map_append,
    List.toFinset_append]
